import Mathlib

/-!
Shallow embedding of the `protected_data` library
(src/protected_data.h) and its demonstration client (src/main.cpp).

The library wraps one object and one mutex in a container
(`protected_data<T, M>`) whose contents are reachable only through RAII
guards (`unique_guard`, `shared_guard`).  Narrowing operations
(`can_cast_to`, `get_unique_cast`, `get_shared_cast`,
`cast_shared_ptr_protected_data`) use runtime type information to
re-view a base-typed container at a derived type over the same storage
and the same mutex.

Modelling choices:
* runtime types form a small closed universe `Ty` mirroring the
  demonstration hierarchy of main.cpp (`Square` derives from `Shape`);
  `Other` stands for any class unrelated to both, so that failing casts
  are representable;
* a contained object `Obj` carries its runtime (most-derived) type tag
  `rt`, a `name` field (declared in `Shape`) and an `edge` field
  (declared in `Square`); `dynamic_cast<U*>` succeeds exactly when the
  runtime type is `U` or a subtype of `U`;
* a mutex is a `LockState` counting current exclusive holders (`excl`),
  current shared holders (`shd`) and, for acquisition-counting claims,
  the total numbers of exclusive / shared acquisitions ever performed
  (`acqE`, `acqS`).  `std::unique_lock(m)` / `std::shared_lock(m)`
  construction acquires, the guard destructor releases;
* member functions become state-passing functions on `PData`
  (mutex plus object) returning their C++ result paired with the
  post-state, so that frame conditions ("acquires no lock", "leaves the
  object unchanged") are statable;
* `std::shared_ptr` ownership becomes a `World` with an address-indexed
  heap of containers and a per-address shared-ownership count; a null
  `shared_ptr` has address `none`, and dereferencing a null or dangling
  pointer yields the undefined result `none` at the operation level;
* the blocking concurrency claims are settled on two labelled
  transition systems built from the same lock primitives: `LockStep`
  (the guarded acquire / release protocol of a shared mutex used by
  RAII holders) and `Step` (N threads that repeatedly acquire the
  exclusive lock, perform a non-atomic read-increment-write of a
  counter in the protected object, and release).
-/

namespace CPD

/-- Runtime-type universe of the demonstration hierarchy in main.cpp:
`Square` publicly derives from `Shape`; `Other` is unrelated to both. -/
inductive Ty where
  | Shape
  | Square
  | Other
deriving DecidableEq

/-- Decides whether runtime type `t` is `u` or a subtype of `u`
(reflexive closure of the declared inheritance `Square : public Shape`). -/
def subtypeOf : Ty → Ty → Bool
  | Ty.Square, Ty.Shape => true
  | t, u => t == u

/-- Specification-side notion used by the claims: the object `o` is an
instance of `U`, i.e. its runtime type is `U` itself or a subtype of `U`. -/
def InstanceOf (o : Ty) (u : Ty) : Prop :=
  o = u ∨ (o = Ty.Square ∧ u = Ty.Shape)

instance (o u : Ty) : Decidable (InstanceOf o u) := by
  unfold InstanceOf; infer_instance

/-- A polymorphic object: the runtime (most-derived) type tag together
with the data members of the hierarchy (`name` from `Shape`, `edge`
from `Square`; `edge` is meaningful only when `rt = Square`). -/
structure Obj where
  rt : Ty
  name : String
  edge : Int
deriving DecidableEq

/-- Embedding of `dynamic_cast<U*>(&o)`: yields a (pointer to the) same
object when the runtime type of `o` is `U` or a subtype of `U`, and the
null pointer (`none`) otherwise. -/
def dynamicCast (u : Ty) (o : Obj) : Option Obj :=
  if subtypeOf o.rt u then some o else none

/-- State of one mutex `M`: current exclusive holders, current shared
holders, and cumulative counts of exclusive / shared acquisitions
performed on it. -/
structure LockState where
  excl : Nat
  shd : Nat
  acqE : Nat
  acqS : Nat
deriving DecidableEq

/-- Effect of `mutex.lock()` once it proceeds (a blocked caller proceeds
only from a state with no holder at all; see `LockStep.acqE`). -/
def lockExclusive (m : LockState) : LockState :=
  { m with excl := m.excl + 1, acqE := m.acqE + 1 }

/-- Effect of `mutex.unlock()`. -/
def unlockExclusive (m : LockState) : LockState :=
  { m with excl := m.excl - 1 }

/-- Effect of `mutex.lock_shared()` once it proceeds (a blocked caller
proceeds only when no exclusive holder is present; see `LockStep.acqS`). -/
def lockShared (m : LockState) : LockState :=
  { m with shd := m.shd + 1, acqS := m.acqS + 1 }

/-- Effect of `mutex.unlock_shared()`. -/
def unlockShared (m : LockState) : LockState :=
  { m with shd := m.shd - 1 }

/-- A mutex nobody holds and nobody has ever acquired. -/
def freeLock : LockState :=
  { excl := 0, shd := 0, acqE := 0, acqS := 0 }

/-- The container `protected_data<T, M>`: owns one mutex `mutex_` and
one object `object_` (by value; the object may have been placed there
through a reinterpreted handle, so its runtime tag is carried by the
object itself).  Both specializations (the `Lockable`-only one and the
`SharedLockable` one) have identical bodies for the members modelled
here. -/
structure PData where
  mutex : LockState
  object : Obj
deriving DecidableEq

/-- A `unique_guard<U, M>`: records the static type `U` at which it
grants read-write access.  Its two reference members (`lock_` on the
container's mutex, `object_` on the container's object) are embedded by
the guard operations below acting on the container state itself. -/
structure UGuard where
  asTy : Ty
deriving DecidableEq

/-- A `shared_guard<U, M>`: records the static type `U` at which it
grants read-only access. -/
structure SGuard where
  asTy : Ty
deriving DecidableEq

/-- `get_unique()`: constructs `unique_guard(mutex_, object_)`, whose
`std::unique_lock` member acquires the exclusive lock; returns the
guard and the post-state of the container. -/
def get_unique (pd : PData) : UGuard × PData :=
  ({ asTy := pd.object.rt }, { pd with mutex := lockExclusive pd.mutex })

/-- `get_shared() const` (SharedLockable specialization): constructs
`shared_guard(*this)`, whose `std::shared_lock` member acquires the
shared lock. -/
def get_shared (pd : PData) : SGuard × PData :=
  ({ asTy := pd.object.rt }, { pd with mutex := lockShared pd.mutex })

/-- `can_cast_to<U>() const`: `dynamic_cast<const U*>(&object_)` and a
null-pointer test; touches no lock, so the container state is returned
unchanged. -/
def can_cast_to (u : Ty) (pd : PData) : Bool × PData :=
  ((dynamicCast u pd.object).isSome, pd)

/-- `get_unique_cast<U>()`: on a successful `dynamic_cast<U*>(&object_)`
constructs `unique_guard<U, M>(mutex_, *ptr)` in place — the guard's
`std::unique_lock` member acquires the exclusive lock and its reference
member aliases the contained object; on a failed cast returns the empty
optional and touches nothing. -/
def get_unique_cast (u : Ty) (pd : PData) : Option UGuard × PData :=
  match dynamicCast u pd.object with
  | some _ => (some { asTy := u }, { pd with mutex := lockExclusive pd.mutex })
  | none => (none, pd)

/-- `get_shared_cast<U>() const` (SharedLockable specialization): as
`get_unique_cast` but constructing a `shared_guard<U, M>`, acquiring
the shared lock. -/
def get_shared_cast (u : Ty) (pd : PData) : Option SGuard × PData :=
  match dynamicCast u pd.object with
  | some _ => (some { asTy := u }, { pd with mutex := lockShared pd.mutex })
  | none => (none, pd)

/-- Writing through a `unique_guard`'s dereference operators: the
guard's `object_` member references the container's own `object_`, so a
mutation lands in the container. -/
def uguardWrite (f : Obj → Obj) (pd : PData) : PData :=
  { pd with object := f pd.object }

/-- Reading through a `unique_guard`'s dereference operators. -/
def uguardRead (pd : PData) : Obj :=
  pd.object

/-- Destructor of a `unique_guard`: its `std::unique_lock` member
releases the exclusive lock it acquired. -/
def uguardDrop (pd : PData) : PData :=
  { pd with mutex := unlockExclusive pd.mutex }

/-- Reading through a `shared_guard`'s (const-only) dereference
operators; the guard exposes no mutating access, so the container is
returned unchanged. -/
def sguardRead (pd : PData) : Obj × PData :=
  (pd.object, pd)

/-- Destructor of a `shared_guard`: its `std::shared_lock` member
releases the shared lock it acquired. -/
def sguardDrop (pd : PData) : PData :=
  { pd with mutex := unlockShared pd.mutex }

/-- A guard used as a block-scoped RAII value: the guard is constructed
(acquiring the exclusive lock), the block body runs — possibly ending in
an exception, modelled by `Except` — and the guard's destructor runs on
every exit path, normal or unwinding, releasing the lock.  The body
receives the container with the lock held and returns its outcome with
the container it leaves behind. -/
def with_unique {E A : Type} (pd : PData)
    (body : PData → Except E A × PData) : Except E A × PData :=
  let pdAcq := { pd with mutex := lockExclusive pd.mutex }
  let r := body pdAcq
  (r.1, uguardDrop r.2)

/-- Block-scoped use of a `shared_guard`, releasing the shared lock on
every exit path. -/
def with_shared {E A : Type} (pd : PData)
    (body : PData → Except E A × PData) : Except E A × PData :=
  let pdAcq := { pd with mutex := lockShared pd.mutex }
  let r := body pdAcq
  (r.1, sguardDrop r.2)

/-- A `std::shared_ptr<protected_data<T, M>>`: the address of the
referenced container (`none` for the null pointer) and the static type
`T` at which the handle views it.  A reinterpreted handle keeps the
address and changes only `asTy`. -/
structure SharedPtr where
  addr : Option Nat
  asTy : Ty
deriving DecidableEq

/-- The null `shared_ptr` (as returned by `ShapeManager::get_shape_at`
on an out-of-range index). -/
def nullPtr : SharedPtr :=
  { addr := none, asTy := Ty.Shape }

/-- Heap of shared-owned containers plus the shared-ownership
(`use_count`) of each address. -/
structure World where
  heap : Nat → Option PData
  rc : Nat → Nat

/-- `cast_shared_ptr_protected_data<U>(p)`: evaluates
`p->can_cast_to<U>()` — dereferencing `p` unconditionally, so a null or
dangling `p` leaves the whole operation undefined (outer `none`) — and
on success returns `std::reinterpret_pointer_cast<protected_data<U, M>>(p)`:
a new handle to the same address with one more shared owner and nothing
constructed; on a failed type check it returns the empty optional with
the world untouched. -/
def cast_shared_ptr_protected_data (u : Ty) (p : SharedPtr) (w : World) :
    Option (Option SharedPtr × World) :=
  match p.addr with
  | none => none
  | some a =>
    match w.heap a with
    | none => none
    | some pd =>
      if (can_cast_to u pd).1 then
        some (some { addr := some a, asTy := u },
          { w with rc := fun n => if n = a then w.rc n + 1 else w.rc n })
      else
        some (none, w)

/-- Scenario helper built from the container operations: through the
handle `p`, acquire an exclusive guard (`get_unique`), mutate the
object through it, and let the guard go out of scope; undefined for a
null or dangling handle. -/
def write_via (p : SharedPtr) (f : Obj → Obj) (w : World) : Option World :=
  match p.addr with
  | none => none
  | some a =>
    match w.heap a with
    | none => none
    | some pd =>
      let acq := (get_unique pd).2
      let don := uguardDrop (uguardWrite f acq)
      some { w with heap := fun n => if n = a then some don else w.heap n }

/-- Scenario helper built from the container operations: through the
handle `p`, acquire a shared guard (`get_shared`), read the object
through it, and let the guard go out of scope. -/
def read_via (p : SharedPtr) (w : World) : Option (Obj × World) :=
  match p.addr with
  | none => none
  | some a =>
    match w.heap a with
    | none => none
    | some pd =>
      let acq := (get_shared pd).2
      let r := sguardRead acq
      let don := sguardDrop r.2
      some (r.1, { w with heap := fun n => if n = a then some don else w.heap n })

/-- `ShapeManager` from main.cpp: a vector of shared-owned
`protected_data<Shape, std::shared_mutex>` containers. -/
structure ShapeManager where
  shapes : List SharedPtr

/-- `ShapeManager::get_shape_at(index)`: the stored handle when `index`
is in range, the null pointer otherwise; paired with the manager state
it leaves behind. -/
def get_shape_at (m : ShapeManager) (index : Nat) : SharedPtr × ShapeManager :=
  if h : index < m.shapes.length then (m.shapes.get ⟨index, h⟩, m)
  else (nullPtr, m)

/-- Protocol of a shared mutex as used by the RAII guards: `lock()`
proceeds only when nobody holds the mutex in any mode, `lock_shared()`
proceeds only when no exclusive holder is present, and each release is
performed by a guard that holds the corresponding mode. -/
inductive LockStep : LockState → LockState → Prop
  | acqE (m : LockState) (h : m.excl = 0 ∧ m.shd = 0) :
      LockStep m (lockExclusive m)
  | relE (m : LockState) (h : 0 < m.excl) :
      LockStep m (unlockExclusive m)
  | acqS (m : LockState) (h : m.excl = 0) :
      LockStep m (lockShared m)
  | relS (m : LockState) (h : 0 < m.shd) :
      LockStep m (unlockShared m)

/-- Program counter of one incrementing thread: outside the critical
section, holding the exclusive guard before the read, or holding it
after having read the counter value `v` (the non-atomic increment is
the two separate steps read and write). -/
inductive PC where
  | idle
  | locked
  | haveVal (v : Nat)
deriving DecidableEq

/-- One thread of the lost-update experiment: its program counter, the
number of increments it still has to perform, and the number it was
asked to perform in total. -/
structure TState where
  pc : PC
  remaining : Nat
  total : Nat
deriving DecidableEq

/-- Shared state of the lost-update experiment: the container's mutex,
the counter stored in the protected object, and the threads. -/
structure Sys where
  mutex : LockState
  counter : Nat
  threads : List TState
deriving DecidableEq

/-- Interleaving semantics of N threads that each loop: construct an
exclusive guard (blocking until the mutex is free), read the counter,
write back the read value plus one, and drop the guard. -/
inductive Step : Sys → Sys → Prop
  | acquire (s : Sys) (i : Nat) (t : TState)
      (ht : s.threads[i]? = some t) (hpc : t.pc = PC.idle)
      (hrem : 0 < t.remaining)
      (hfree : s.mutex.excl = 0 ∧ s.mutex.shd = 0) :
      Step s { s with mutex := lockExclusive s.mutex,
                      threads := s.threads.set i { t with pc := PC.locked } }
  | readC (s : Sys) (i : Nat) (t : TState)
      (ht : s.threads[i]? = some t) (hpc : t.pc = PC.locked) :
      Step s { s with threads := s.threads.set i
                        { t with pc := PC.haveVal s.counter } }
  | writeC (s : Sys) (i : Nat) (t : TState) (v : Nat)
      (ht : s.threads[i]? = some t) (hpc : t.pc = PC.haveVal v) :
      Step s { s with mutex := unlockExclusive s.mutex,
                      counter := v + 1,
                      threads := s.threads.set i
                        { t with pc := PC.idle, remaining := t.remaining - 1 } }

/-- Initial state of the lost-update experiment: mutex free and never
acquired, counter zero, every thread idle with its full quota ahead of
it. -/
def InitSys (s : Sys) : Prop :=
  s.mutex = freeLock ∧ s.counter = 0 ∧
    ∀ t ∈ s.threads, t.pc = PC.idle ∧ t.remaining = t.total

/-- Number of exclusive guards currently alive in the thread list: a
thread holds the guard exactly while it is not idle. -/
def holdCount (l : List TState) : Nat :=
  (l.map fun t => if t.pc = PC.idle then 0 else 1).sum

/-- Number of increments already performed by the threads of `l`
(a thread whose in-flight increment has not yet been written back still
counts its current iteration in `remaining`). -/
def ctrSum (l : List TState) : Nat :=
  (l.map fun t => t.total - t.remaining).sum

/-- Inductive invariant of the lost-update experiment. -/
def Inv (s : Sys) : Prop :=
  s.mutex.shd = 0 ∧
  s.mutex.excl = holdCount s.threads ∧
  s.mutex.excl ≤ 1 ∧
  (∀ t ∈ s.threads, t.remaining ≤ t.total) ∧
  (∀ t ∈ s.threads, t.pc ≠ PC.idle → 0 < t.remaining) ∧
  (∀ t ∈ s.threads, ∀ v, t.pc = PC.haveVal v → v = s.counter) ∧
  s.counter = ctrSum s.threads

/-- Helper: a member's contribution is at most the sum over the list. -/
lemma le_sum_of_mem {α : Type} (f : α → Nat) {l : List α} {a : α}
    (h : a ∈ l) : f a ≤ (l.map f).sum := by
  induction l with
  | nil => simp at h
  | cons b l ih =>
    rw [List.mem_cons] at h
    rcases h with rfl | h
    · simp
    · simp only [List.map_cons, List.sum_cons]
      exact le_trans (ih h) (Nat.le_add_left _ _)

/-- Helper: an indexed element's contribution is at most the sum. -/
lemma le_sum_of_getElem {α : Type} (f : α → Nat) :
    ∀ (l : List α) (i : Nat) (t : α), l[i]? = some t →
      f t ≤ (l.map f).sum := by
  intro l
  induction l with
  | nil => intro i t h; simp at h
  | cons b l ih =>
    intro i t h
    cases i with
    | zero =>
      simp only [List.getElem?_cons_zero, Option.some_inj] at h
      subst h; simp
    | succ n =>
      simp only [List.getElem?_cons_succ] at h
      simp only [List.map_cons, List.sum_cons]
      exact le_trans (ih n t h) (Nat.le_add_left _ _)

/-- Helper: how replacing the element at a valid index changes the sum. -/
lemma sum_map_set {α : Type} (f : α → Nat) :
    ∀ (l : List α) (i : Nat) (t u : α), l[i]? = some t →
      ((l.set i u).map f).sum + f t = (l.map f).sum + f u := by
  intro l
  induction l with
  | nil => intro i t u h; simp at h
  | cons b l ih =>
    intro i t u h
    cases i with
    | zero =>
      simp only [List.getElem?_cons_zero, Option.some_inj] at h
      subst h
      simp only [List.set_cons_zero, List.map_cons, List.sum_cons]
      omega
    | succ n =>
      simp only [List.getElem?_cons_succ] at h
      simp only [List.set_cons_succ, List.map_cons, List.sum_cons]
      have := ih n t u h
      omega

/-- Helper: two distinct valid indices contribute jointly to the sum. -/
lemma pair_le_sum {α : Type} (f : α → Nat) :
    ∀ (l : List α) (i j : Nat) (ti tj : α), i ≠ j →
      l[i]? = some ti → l[j]? = some tj →
      f ti + f tj ≤ (l.map f).sum := by
  intro l
  induction l with
  | nil => intro i j ti tj hne hi hj; simp at hi
  | cons b l ih =>
    intro i j ti tj hne hi hj
    cases i with
    | zero =>
      simp only [List.getElem?_cons_zero, Option.some_inj] at hi
      subst hi
      cases j with
      | zero => exact absurd rfl hne
      | succ m =>
        simp only [List.getElem?_cons_succ] at hj
        have := le_sum_of_getElem f l m tj hj
        simp only [List.map_cons, List.sum_cons]
        omega
    | succ n =>
      simp only [List.getElem?_cons_succ] at hi
      cases j with
      | zero =>
        simp only [List.getElem?_cons_zero, Option.some_inj] at hj
        subst hj
        have := le_sum_of_getElem f l n ti hi
        simp only [List.map_cons, List.sum_cons]
        omega
      | succ m =>
        simp only [List.getElem?_cons_succ] at hj
        have : n ≠ m := fun hc => hne (by rw [hc])
        have := ih n m ti tj this hi hj
        simp only [List.map_cons, List.sum_cons]
        omega

/-- Helper: a list whose elements are all sent to zero sums to zero. -/
lemma sum_map_eq_zero {α : Type} (f : α → Nat) (l : List α)
    (h : ∀ x ∈ l, f x = 0) : (l.map f).sum = 0 := by
  induction l with
  | nil => simp
  | cons b l ih =>
    simp only [List.map_cons, List.sum_cons]
    rw [h b (List.mem_cons_self b l), ih fun x hx => h x (List.mem_cons_of_mem b hx)]

/-- Helper: an indexed element is a member. -/
lemma mem_of_getElem {α : Type} :
    ∀ (l : List α) (i : Nat) (t : α), l[i]? = some t → t ∈ l := by
  intro l
  induction l with
  | nil => intro i t h; simp at h
  | cons b l ih =>
    intro i t h
    cases i with
    | zero =>
      simp only [List.getElem?_cons_zero, Option.some_inj] at h
      subst h; exact List.mem_cons_self b l
    | succ n =>
      simp only [List.getElem?_cons_succ] at h
      exact List.mem_cons_of_mem b (ih n t h)

/-- Helper: a member of `l.set i u` is a member of `l` or equals `u`. -/
lemma mem_set_cases {α : Type} :
    ∀ (l : List α) (i : Nat) (u a : α), a ∈ l.set i u → a ∈ l ∨ a = u := by
  intro l
  induction l with
  | nil => intro i u a h; simp [List.set] at h
  | cons b l ih =>
    intro i u a h
    cases i with
    | zero =>
      simp only [List.set_cons_zero, List.mem_cons] at h
      rcases h with rfl | h
      · exact Or.inr rfl
      · exact Or.inl (List.mem_cons_of_mem b h)
    | succ n =>
      simp only [List.set_cons_succ, List.mem_cons] at h
      rcases h with rfl | h
      · exact Or.inl (List.mem_cons_self a l)
      · rcases ih n u a h with h | h
        · exact Or.inl (List.mem_cons_of_mem b h)
        · exact Or.inr h

/-- Mutex protocol invariant: never more than one exclusive holder, and
never an exclusive holder together with a shared holder. -/
def LockInv (m : LockState) : Prop :=
  m.excl ≤ 1 ∧ (0 < m.excl → m.shd = 0)

/-- One protocol step preserves the mutex invariant. -/
lemma lockInv_step {m m2 : LockState} (h : LockInv m) (hs : LockStep m m2) :
    LockInv m2 := by
  obtain ⟨h1, h2⟩ := h
  cases hs with
  | acqE hfree =>
    exact ⟨by simp [lockExclusive, hfree.1], fun _ => by simp [lockExclusive, hfree.2]⟩
  | relE hpos =>
    refine ⟨by simp [unlockExclusive]; omega, fun hc => ?_⟩
    simp only [unlockExclusive] at hc ⊢
    exact h2 (by omega)
  | acqS hex =>
    refine ⟨by simp [lockShared]; omega, fun hc => ?_⟩
    simp only [lockShared] at hc ⊢
    omega
  | relS hpos =>
    refine ⟨by simpa [unlockShared] using h1, fun hc => ?_⟩
    simp only [unlockShared] at hc ⊢
    rw [h2 hc]

/-- The mutex invariant holds in every state reachable from a free
mutex under the RAII guard protocol. -/
lemma lockInv_reach {m : LockState}
    (hr : Relation.ReflTransGen LockStep freeLock m) : LockInv m := by
  induction hr with
  | refl => exact ⟨by simp [freeLock], fun hc => by simp [freeLock] at hc⟩
  | tail hsteps hstep ih => exact lockInv_step ih hstep

/-- Specialization of `sum_map_set` to the count of alive guards. -/
lemma holdCount_set (l : List TState) (i : Nat) (t u : TState)
    (h : l[i]? = some t) :
    holdCount (l.set i u) + (if t.pc = PC.idle then 0 else 1)
      = holdCount l + (if u.pc = PC.idle then 0 else 1) :=
  sum_map_set _ l i t u h

/-- Specialization of `sum_map_set` to the count of performed
increments. -/
lemma ctrSum_set (l : List TState) (i : Nat) (t u : TState)
    (h : l[i]? = some t) :
    ctrSum (l.set i u) + (t.total - t.remaining)
      = ctrSum l + (u.total - u.remaining) :=
  sum_map_set _ l i t u h

/-- Specialization of `le_sum_of_mem` to the count of alive guards. -/
lemma ind_le_holdCount {l : List TState} {t : TState} (h : t ∈ l) :
    (if t.pc = PC.idle then 0 else 1) ≤ holdCount l :=
  le_sum_of_mem (fun u => if u.pc = PC.idle then 0 else 1) h

/-- The invariant holds initially. -/
lemma inv_init {s : Sys} (h : InitSys s) : Inv s := by
  obtain ⟨hm, hc, ht⟩ := h
  refine ⟨?_, ?_, ?_, ?_, ?_, ?_, ?_⟩
  · rw [hm]; rfl
  · rw [hm]
    symm
    exact sum_map_eq_zero _ _ fun t htm => by simp [(ht t htm).1]
  · rw [hm]; exact Nat.zero_le 1
  · intro t htm; rw [(ht t htm).2]
  · intro t htm hne; exact absurd (ht t htm).1 hne
  · intro t htm v hv; rw [(ht t htm).1] at hv; exact absurd hv (by simp)
  · rw [hc]
    symm
    exact sum_map_eq_zero _ _ fun t htm => by rw [(ht t htm).2]; omega

/-- One interleaving step preserves the invariant. -/
lemma inv_step {s s2 : Sys} (hinv : Inv s) (hs : Step s s2) : Inv s2 := by
  obtain ⟨hshd, hexcl, hle, hrt, hpos, hhv, hctr⟩ := hinv
  cases hs with
  | acquire i t ht hpc hrem hfree =>
    obtain ⟨hf1, hf2⟩ := hfree
    have htm : t ∈ s.threads := mem_of_getElem s.threads i t ht
    have hhold : holdCount (s.threads.set i { t with pc := PC.locked })
        = holdCount s.threads + 1 := by
      have hx := holdCount_set s.threads i t { t with pc := PC.locked } ht
      have e1 : (if t.pc = PC.idle then 0 else 1) = 0 := by simp [hpc]
      have e2 : (if ({ t with pc := PC.locked } : TState).pc = PC.idle
          then 0 else 1) = 1 := by simp
      rw [e1, e2] at hx
      omega
    have hsum : ctrSum (s.threads.set i { t with pc := PC.locked })
        = ctrSum s.threads := by
      have hx := ctrSum_set s.threads i t { t with pc := PC.locked } ht
      have e3 : ({ t with pc := PC.locked } : TState).total = t.total := rfl
      have e4 : ({ t with pc := PC.locked } : TState).remaining
          = t.remaining := rfl
      rw [e3, e4] at hx
      omega
    refine ⟨hshd, ?_, ?_, ?_, ?_, ?_, ?_⟩
    · show s.mutex.excl + 1 = _
      rw [hhold, hexcl]
    · show s.mutex.excl + 1 ≤ 1
      omega
    · intro u hu
      rcases mem_set_cases _ i _ u hu with hu2 | rfl
      · exact hrt u hu2
      · exact hrt t htm
    · intro u hu
      rcases mem_set_cases _ i _ u hu with hu2 | rfl
      · exact hpos u hu2
      · intro _; exact hrem
    · intro u hu
      rcases mem_set_cases _ i _ u hu with hu2 | rfl
      · exact hhv u hu2
      · intro v hv; exact absurd hv (by simp)
    · show s.counter = _
      rw [hsum, hctr]
  | readC i t ht hpc =>
    have htm : t ∈ s.threads := mem_of_getElem s.threads i t ht
    have hhold : holdCount
          (s.threads.set i { t with pc := PC.haveVal s.counter })
        = holdCount s.threads := by
      have hx := holdCount_set s.threads i t
        { t with pc := PC.haveVal s.counter } ht
      have e1 : (if t.pc = PC.idle then 0 else 1) = 1 := by simp [hpc]
      have e2 : (if ({ t with pc := PC.haveVal s.counter } : TState).pc = PC.idle
          then 0 else 1) = 1 := by simp
      rw [e1, e2] at hx
      omega
    have hsum : ctrSum (s.threads.set i { t with pc := PC.haveVal s.counter })
        = ctrSum s.threads := by
      have hx := ctrSum_set s.threads i t
        { t with pc := PC.haveVal s.counter } ht
      have e3 : ({ t with pc := PC.haveVal s.counter } : TState).total
          = t.total := rfl
      have e4 : ({ t with pc := PC.haveVal s.counter } : TState).remaining
          = t.remaining := rfl
      rw [e3, e4] at hx
      omega
    refine ⟨hshd, ?_, ?_, ?_, ?_, ?_, ?_⟩
    · show s.mutex.excl = _
      rw [hhold, hexcl]
    · exact hle
    · intro u hu
      rcases mem_set_cases _ i _ u hu with hu2 | rfl
      · exact hrt u hu2
      · exact hrt t htm
    · intro u hu
      rcases mem_set_cases _ i _ u hu with hu2 | rfl
      · exact hpos u hu2
      · intro _
        exact hpos t htm (by rw [hpc]; simp)
    · intro u hu
      rcases mem_set_cases _ i _ u hu with hu2 | rfl
      · exact hhv u hu2
      · intro v hv
        exact (PC.haveVal.inj hv).symm
    · show s.counter = _
      rw [hsum, hctr]
  | writeC i t v ht hpc =>
    have htm : t ∈ s.threads := mem_of_getElem s.threads i t ht
    have hv_eq : v = s.counter := hhv t htm v hpc
    have hind : (if t.pc = PC.idle then 0 else 1) ≤ holdCount s.threads :=
      ind_le_holdCount htm
    have hind1 : (1 : Nat) ≤ holdCount s.threads := by
      rw [hpc] at hind; simpa using hind
    have hexcl1 : s.mutex.excl = 1 := by omega
    have hpos_t : 0 < t.remaining := hpos t htm (by rw [hpc]; simp)
    have hrt_t : t.remaining ≤ t.total := hrt t htm
    have hhold : holdCount (s.threads.set i
          { t with pc := PC.idle, remaining := t.remaining - 1 }) = 0 := by
      have hx := holdCount_set s.threads i t
        { t with pc := PC.idle, remaining := t.remaining - 1 } ht
      have e1 : (if t.pc = PC.idle then 0 else 1) = 1 := by simp [hpc]
      have e2 : (if ({ t with pc := PC.idle, remaining := t.remaining - 1 }
          : TState).pc = PC.idle then 0 else 1) = 0 := by simp
      rw [e1, e2] at hx
      omega
    have hsum : ctrSum (s.threads.set i
          { t with pc := PC.idle, remaining := t.remaining - 1 })
        = ctrSum s.threads + 1 := by
      have hx := ctrSum_set s.threads i t
        { t with pc := PC.idle, remaining := t.remaining - 1 } ht
      have e3 : ({ t with pc := PC.idle, remaining := t.remaining - 1 }
          : TState).total = t.total := rfl
      have e4 : ({ t with pc := PC.idle, remaining := t.remaining - 1 }
          : TState).remaining = t.remaining - 1 := rfl
      rw [e3, e4] at hx
      omega
    refine ⟨hshd, ?_, ?_, ?_, ?_, ?_, ?_⟩
    · show s.mutex.excl - 1 = _
      rw [hhold, hexcl1]
    · show s.mutex.excl - 1 ≤ 1
      omega
    · intro u hu
      rcases mem_set_cases _ i _ u hu with hu2 | rfl
      · exact hrt u hu2
      · show t.remaining - 1 ≤ t.total
        omega
    · intro u hu
      rcases mem_set_cases _ i _ u hu with hu2 | rfl
      · exact hpos u hu2
      · intro hne; exact absurd rfl hne
    · intro u hu
      intro w hw
      have hle1 : (if u.pc = PC.idle then 0 else 1)
          ≤ holdCount (s.threads.set i
            { t with pc := PC.idle, remaining := t.remaining - 1 }) :=
        ind_le_holdCount hu
      rw [hhold, hw] at hle1
      simp at hle1
    · show v + 1 = _
      rw [hsum, ← hctr, hv_eq]

/-- The invariant holds in every reachable state of the experiment. -/
lemma inv_reach {s0 s : Sys} (h0 : InitSys s0)
    (hr : Relation.ReflTransGen Step s0 s) : Inv s := by
  induction hr with
  | refl => exact inv_init h0
  | tail hsteps hstep ih => exact inv_step ih hstep

/-- Helper: sums of pointwise equal maps agree. -/
lemma sum_map_congr {α : Type} (f g : α → Nat) (l : List α)
    (h : ∀ x ∈ l, f x = g x) : (l.map f).sum = (l.map g).sum := by
  induction l with
  | nil => rfl
  | cons b l ih =>
    simp only [List.map_cons, List.sum_cons]
    rw [h b (List.mem_cons_self b l),
      ih fun x hx => h x (List.mem_cons_of_mem b hx)]

/-- In an invariant state, at most one thread holds the exclusive
guard. -/
lemma mutex_unique {s : Sys} (hinv : Inv s) {i j : Nat} {ti tj : TState}
    (hi : s.threads[i]? = some ti) (hj : s.threads[j]? = some tj)
    (hti : ti.pc ≠ PC.idle) (htj : tj.pc ≠ PC.idle) : i = j := by
  by_contra hne
  have hx := pair_le_sum (fun u => if u.pc = PC.idle then 0 else 1)
    s.threads i j ti tj hne hi hj
  simp only [if_neg hti, if_neg htj] at hx
  have h2 : 1 + 1 ≤ holdCount s.threads := hx
  obtain ⟨_, hexcl, hle, _⟩ := hinv
  omega

/-- In an invariant state where every thread is finished, the counter
equals the total number of increments requested. -/
lemma counter_final {s : Sys} (hinv : Inv s)
    (hdone : ∀ t ∈ s.threads, t.pc = PC.idle ∧ t.remaining = 0) :
    s.counter = (s.threads.map fun t => t.total).sum := by
  have hctr := hinv.2.2.2.2.2.2
  rw [hctr]
  exact sum_map_congr _ _ _ fun t htm => by rw [(hdone t htm).2]; omega

/-- The code-side runtime check agrees with the spec-side notion of
being an instance of the candidate type. -/
lemma subtypeOf_iff (t u : Ty) : subtypeOf t u = true ↔ InstanceOf t u := by
  cases t <;> cases u <;> decide

/-- Concrete fixture: a base-typed container whose contained object has
runtime type `Square` (as produced in main.cpp by storing a
`protected_data<Square>` through the aliasing cast). -/
def pdSq : PData :=
  { mutex := freeLock,
    object := { rt := Ty.Square, name := "square", edge := 5 } }

/-- Concrete fixture: a mutation through a narrowed guard touching the
derived-only field. -/
def fEdge : Obj → Obj :=
  fun o => { o with edge := 10 }

/-- Concrete fixture: a non-null handle to address 0. -/
def sp0 : SharedPtr :=
  { addr := some 0, asTy := Ty.Shape }

/-- Concrete fixture: a one-element `ShapeManager`. -/
def mgr : ShapeManager :=
  { shapes := [sp0] }

/-- Concrete fixture: a world whose address 0 holds `pdSq` with one
shared owner. -/
def w0 : World :=
  { heap := fun n => if n = 0 then some pdSq else none,
    rc := fun _ => 1 }

/-- C6: for every container and every candidate type, `can_cast_to`
(the code behind the spec's `can_narrow_to`) returns true exactly when
the contained object's runtime type is the candidate type or a subtype
of it, and the call leaves the container — its lock included —
unchanged, so it acquires no lock. -/
theorem C6_can_narrow_to (pd : PData) (u : Ty) :
    ((can_cast_to u pd).1 = true ↔ InstanceOf pd.object.rt u) ∧
    (can_cast_to u pd).2 = pd := by
  constructor
  · rw [← subtypeOf_iff]
    unfold can_cast_to dynamicCast
    cases h : subtypeOf pd.object.rt u <;> simp [h]
  · rfl

/-- Witness for C6 at a concrete container and candidate type. -/
theorem C6_witness :
    ((can_cast_to Ty.Shape pdSq).1 = true ↔
      InstanceOf pdSq.object.rt Ty.Shape) ∧
    (can_cast_to Ty.Shape pdSq).2 = pdSq :=
  C6_can_narrow_to pdSq Ty.Shape

/-- C10: the read-only operations `can_cast_to`, `get_shared`,
`get_shared_cast` and the dereference of a `shared_guard` leave the
contained object unchanged. -/
theorem C10_read_only_frame (pd : PData) (u : Ty) :
    (can_cast_to u pd).2.object = pd.object ∧
    (get_shared pd).2.object = pd.object ∧
    (get_shared_cast u pd).2.object = pd.object ∧
    (sguardRead pd).1 = pd.object ∧
    (sguardRead pd).2 = pd := by
  refine ⟨rfl, rfl, ?_, rfl, rfl⟩
  unfold get_shared_cast
  cases h : dynamicCast u pd.object <;> simp [h]

/-- Witness for C10 at a concrete container and candidate type. -/
theorem C10_witness :
    (can_cast_to Ty.Square pdSq).2.object = pdSq.object ∧
    (get_shared pdSq).2.object = pdSq.object ∧
    (get_shared_cast Ty.Square pdSq).2.object = pdSq.object ∧
    (sguardRead pdSq).1 = pdSq.object ∧
    (sguardRead pdSq).2 = pdSq :=
  C10_read_only_frame pdSq Ty.Square

/-- C9: `ShapeManager::get_shape_at(index)` returns the null handle
when `index` is out of range, returns the stored handle at `index`
otherwise, and leaves the collection unchanged in both cases. -/
theorem C9_get_shape_at (m : ShapeManager) (index : Nat) :
    (m.shapes.length ≤ index → (get_shape_at m index).1 = nullPtr) ∧
    (∀ h : index < m.shapes.length,
      (get_shape_at m index).1 = m.shapes.get ⟨index, h⟩) ∧
    (get_shape_at m index).2 = m := by
  refine ⟨?_, ?_, ?_⟩
  · intro hge
    unfold get_shape_at
    rw [dif_neg (by omega)]
  · intro h
    unfold get_shape_at
    rw [dif_pos h]
  · unfold get_shape_at
    split <;> rfl

/-- Witness for C9: out-of-range index gives null, in-range index gives
the stored handle, and the manager is unchanged. -/
theorem C9_witness :
    (get_shape_at mgr 5).1 = nullPtr ∧
    (get_shape_at mgr 0).1 = sp0 ∧
    (get_shape_at mgr 5).2 = mgr :=
  ⟨(C9_get_shape_at mgr 5).1 (by decide),
   (C9_get_shape_at mgr 0).2.1 (by decide),
   (C9_get_shape_at mgr 5).2.2⟩

/-- C5: a call to `get_unique_cast` (the code behind the spec's
`try_narrow_exclusive`) performs exactly one exclusive acquisition of
the container's mutex when it succeeds — the one made while
constructing the narrowed guard — and performs no acquisition at all
when it fails; in no case does it acquire the same lock twice. -/
theorem C5_one_acquisition (pd : PData) (u : Ty) :
    ((get_unique_cast u pd).1.isSome = true →
      (get_unique_cast u pd).2.mutex.acqE = pd.mutex.acqE + 1 ∧
      (get_unique_cast u pd).2.mutex.acqS = pd.mutex.acqS) ∧
    ((get_unique_cast u pd).1.isSome = false →
      (get_unique_cast u pd).2.mutex = pd.mutex) := by
  unfold get_unique_cast
  cases h : dynamicCast u pd.object <;> simp [h, lockExclusive]

/-- Witness for C5 at a successful concrete narrowing. -/
theorem C5_witness :
    (get_unique_cast Ty.Shape pdSq).2.mutex.acqE = pdSq.mutex.acqE + 1 ∧
    (get_unique_cast Ty.Shape pdSq).2.mutex.acqS = pdSq.mutex.acqS :=
  (C5_one_acquisition pdSq Ty.Shape).1 (by decide)

/-- C8: `cast_shared_ptr_protected_data` dereferences its input handle
unconditionally — there is no null check in its body — so for a null
handle the operation has no defined result, while under the
precondition that the handle is non-null (and references a live
container) the operation is defined. -/
theorem C8_unconditional_deref (u : Ty) (p : SharedPtr) (w : World) :
    (p.addr = none → cast_shared_ptr_protected_data u p w = none) ∧
    (∀ a pdw, p.addr = some a → w.heap a = some pdw →
      ∃ r, cast_shared_ptr_protected_data u p w = some r) := by
  constructor
  · intro hp
    unfold cast_shared_ptr_protected_data
    rw [hp]
  · intro a pdw hp hw
    unfold cast_shared_ptr_protected_data
    rw [hp]
    simp only [hw]
    cases hc : (can_cast_to u pdw).1 <;> simp [hc]

/-- Witness for C8: the concrete non-null handle yields a defined
result, the null handle an undefined one. -/
theorem C8_witness :
    (∃ r, cast_shared_ptr_protected_data Ty.Square sp0 w0 = some r) ∧
    cast_shared_ptr_protected_data Ty.Square nullPtr w0 = none :=
  ⟨(C8_unconditional_deref Ty.Square sp0 w0).2 0 pdSq rfl rfl,
   (C8_unconditional_deref Ty.Square nullPtr w0).1 rfl⟩

/-- C1: `get_unique_cast` / `get_shared_cast` (the code behind the
spec's `try_narrow_exclusive` / `try_narrow_shared`) return the empty
optional exactly when the contained object's runtime type is not the
candidate type or a subtype of it; otherwise they return a populated
guard typed at the candidate type, holding the container's own mutex
and aliasing the same contained object, so that a mutation made through
the narrowed exclusive guard is, after the guard is released, visible
through guards obtained from the original base-typed container, and the
narrowed shared guard reads the very contained object. -/
theorem C1_try_narrow (pd : PData) (u : Ty) (f : Obj → Obj) :
    ((get_unique_cast u pd).1 = none ↔ ¬ InstanceOf pd.object.rt u) ∧
    ((get_shared_cast u pd).1 = none ↔ ¬ InstanceOf pd.object.rt u) ∧
    (InstanceOf pd.object.rt u →
      (get_unique_cast u pd).1 = some { asTy := u } ∧
      (get_unique_cast u pd).2.mutex = lockExclusive pd.mutex ∧
      (get_unique_cast u pd).2.object = pd.object ∧
      (sguardRead (get_shared
          (uguardDrop (uguardWrite f (get_unique_cast u pd).2))).2).1
        = f pd.object ∧
      uguardRead (get_unique
          (uguardDrop (uguardWrite f (get_unique_cast u pd).2))).2
        = f pd.object ∧
      (uguardDrop (uguardWrite f (get_unique_cast u pd).2)).mutex.excl
        = pd.mutex.excl ∧
      (get_shared_cast u pd).1 = some { asTy := u } ∧
      (get_shared_cast u pd).2.mutex = lockShared pd.mutex ∧
      (sguardRead (get_shared_cast u pd).2).1 = pd.object) := by
  cases h : subtypeOf pd.object.rt u
  · have hni : ¬ InstanceOf pd.object.rt u := by
      rw [← subtypeOf_iff, h]; simp
    refine ⟨?_, ?_, fun hc => absurd hc hni⟩
    · simp [get_unique_cast, dynamicCast, h, hni]
    · simp [get_shared_cast, dynamicCast, h, hni]
  · have hin : InstanceOf pd.object.rt u := (subtypeOf_iff _ _).mp h
    refine ⟨?_, ?_, fun _ => ?_⟩
    · simp [get_unique_cast, dynamicCast, h, hin]
    · simp [get_shared_cast, dynamicCast, h, hin]
    · refine ⟨?_, ?_, ?_, ?_, ?_, ?_, ?_, ?_, ?_⟩ <;>
        simp [get_unique_cast, get_shared_cast, dynamicCast, h, uguardWrite,
          uguardDrop, uguardRead, sguardRead, get_shared, get_unique,
          lockExclusive, unlockExclusive, lockShared]

/-- Witness for C1: a base-typed container holding a `Square`, narrowed
to `Square`; the mutation of the derived-only field made through the
narrowed guard is visible through the original container after release,
and the exclusive lock is back to its prior state. -/
theorem C1_witness :
    (sguardRead (get_shared
        (uguardDrop (uguardWrite fEdge (get_unique_cast Ty.Square pdSq).2))).2).1
      = fEdge pdSq.object ∧
    (uguardDrop (uguardWrite fEdge
        (get_unique_cast Ty.Square pdSq).2)).mutex.excl = pdSq.mutex.excl ∧
    (get_unique_cast Ty.Square pdSq).1 = some { asTy := Ty.Square } :=
  ⟨((C1_try_narrow pdSq Ty.Square fEdge).2.2 (by decide)).2.2.2.1,
   ((C1_try_narrow pdSq Ty.Square fEdge).2.2 (by decide)).2.2.2.2.2.1,
   ((C1_try_narrow pdSq Ty.Square fEdge).2.2 (by decide)).1⟩

/-- C7: every narrowing operation fails only by returning the empty
optional — the embedded operations are total functions with no other
failure outcome, mirroring that the C++ bodies contain no throw and use
the non-throwing pointer form of `dynamic_cast` — and a failed
narrowing leaves the container (object and lock) respectively the
world unchanged. -/
theorem C7_fail_empty_frame (pd : PData) (u : Ty) (p : SharedPtr)
    (w : World) (a : Nat) (pdw : PData)
    (hp : p.addr = some a) (hw : w.heap a = some pdw) :
    ((get_unique_cast u pd).1 = none ↔ subtypeOf pd.object.rt u = false) ∧
    ((get_unique_cast u pd).1 = none → (get_unique_cast u pd).2 = pd) ∧
    ((get_shared_cast u pd).1 = none ↔ subtypeOf pd.object.rt u = false) ∧
    ((get_shared_cast u pd).1 = none → (get_shared_cast u pd).2 = pd) ∧
    (∃ r, cast_shared_ptr_protected_data u p w = some r ∧
      (r.1 = none ↔ subtypeOf pdw.object.rt u = false) ∧
      (r.1 = none → r.2 = w)) := by
  refine ⟨?_, ?_, ?_, ?_, ?_⟩
  · cases h : subtypeOf pd.object.rt u <;>
      simp [get_unique_cast, dynamicCast, h]
  · cases h : subtypeOf pd.object.rt u <;>
      simp [get_unique_cast, dynamicCast, h]
  · cases h : subtypeOf pd.object.rt u <;>
      simp [get_shared_cast, dynamicCast, h]
  · cases h : subtypeOf pd.object.rt u <;>
      simp [get_shared_cast, dynamicCast, h]
  · cases h : subtypeOf pdw.object.rt u
    · refine ⟨(none, w), ?_, by simp [h], fun _ => rfl⟩
      simp [cast_shared_ptr_protected_data, hp, hw, can_cast_to,
        dynamicCast, h]
    · refine ⟨(some { addr := some a, asTy := u },
        { w with rc := fun n => if n = a then w.rc n + 1 else w.rc n }),
        ?_, by simp [h], fun hc => by simp at hc⟩
      simp [cast_shared_ptr_protected_data, hp, hw, can_cast_to,
        dynamicCast, h]

/-- Witness for C7: at a concrete world, failing narrowings return the
empty optional and change nothing. -/
theorem C7_witness :
    ((get_unique_cast Ty.Other pdSq).1 = none ↔
      subtypeOf pdSq.object.rt Ty.Other = false) ∧
    ((get_unique_cast Ty.Other pdSq).1 = none →
      (get_unique_cast Ty.Other pdSq).2 = pdSq) ∧
    ((get_shared_cast Ty.Other pdSq).1 = none ↔
      subtypeOf pdSq.object.rt Ty.Other = false) ∧
    ((get_shared_cast Ty.Other pdSq).1 = none →
      (get_shared_cast Ty.Other pdSq).2 = pdSq) ∧
    (∃ r, cast_shared_ptr_protected_data Ty.Other sp0 w0 = some r ∧
      (r.1 = none ↔ subtypeOf pdSq.object.rt Ty.Other = false) ∧
      (r.1 = none → r.2 = w0)) :=
  C7_fail_empty_frame pdSq Ty.Other sp0 w0 0 pdSq rfl rfl

/-- C4: the aliasing cast `cast_shared_ptr_protected_data` (the spec's
`try_narrow_shared_owner`) returns the empty optional when the runtime
check fails; on success it returns a handle to the same address with
the shared-ownership count of that address incremented, the heap —
hence every container and its lock — untouched, and a mutation
performed through an exclusive guard obtained from the retyped handle
is observable through a shared guard obtained from the original
handle. -/
theorem C4_aliasing_cast (u : Ty) (p : SharedPtr) (w : World) (a : Nat)
    (pdw : PData) (hp : p.addr = some a) (hw : w.heap a = some pdw) :
    (¬ InstanceOf pdw.object.rt u →
      cast_shared_ptr_protected_data u p w = some (none, w)) ∧
    (InstanceOf pdw.object.rt u →
      ∃ q w2, cast_shared_ptr_protected_data u p w = some (some q, w2) ∧
        q.addr = p.addr ∧ q.asTy = u ∧
        w2.heap = w.heap ∧
        w2.rc a = w.rc a + 1 ∧ (∀ n, n ≠ a → w2.rc n = w.rc n) ∧
        ∀ f : Obj → Obj,
          ((write_via q f w2).bind (read_via p)).map Prod.fst
            = some (f pdw.object)) := by
  constructor
  · intro hni
    have h : subtypeOf pdw.object.rt u = false := by
      cases hx : subtypeOf pdw.object.rt u
      · rfl
      · exact absurd ((subtypeOf_iff _ _).mp hx) hni
    simp [cast_shared_ptr_protected_data, hp, hw, can_cast_to,
      dynamicCast, h]
  · intro hin
    have h : subtypeOf pdw.object.rt u = true := (subtypeOf_iff _ _).mpr hin
    refine ⟨{ addr := some a, asTy := u },
      { w with rc := fun n => if n = a then w.rc n + 1 else w.rc n },
      ?_, by rw [hp], rfl, rfl, by simp, fun n hn => by simp [hn], ?_⟩
    · simp [cast_shared_ptr_protected_data, hp, hw, can_cast_to,
        dynamicCast, h]
    · intro f
      simp [write_via, read_via, hw, get_unique, get_shared, uguardWrite,
        uguardDrop, sguardRead, sguardDrop, hp]

/-- Witness for C4: the concrete successful aliasing cast, with the
mutation through the retyped handle read back through the original. -/
theorem C4_witness :
    InstanceOf pdSq.object.rt Ty.Square ∧
    (∃ q w2,
      cast_shared_ptr_protected_data Ty.Square sp0 w0 = some (some q, w2) ∧
      q.addr = sp0.addr ∧ q.asTy = Ty.Square ∧
      w2.heap = w0.heap ∧
      w2.rc 0 = w0.rc 0 + 1 ∧ (∀ n, n ≠ 0 → w2.rc n = w0.rc n) ∧
      ∀ f : Obj → Obj,
        ((write_via q f w2).bind (read_via sp0)).map Prod.fst
          = some (f pdSq.object)) :=
  ⟨by decide,
   (C4_aliasing_cast Ty.Square sp0 w0 0 pdSq rfl rfl).2 (by decide)⟩

/-- C3: the lock mode acquired when a guard is constructed is released
when the guard is destroyed, on every exit path: running a block under
`with_unique` (resp. `with_shared`) restores the exclusive and shared
hold counts of the container's mutex to their values before the block,
whether the body finishes normally (`Except.ok`) or by exceptional
unwinding (`Except.error`), and the body's outcome — error included —
passes through unchanged.  The hypothesis says the body touches the
container only through the guard's dereference, never the mutex
itself. -/
theorem C3_release_on_all_paths {E A : Type} (pd : PData)
    (body : PData → Except E A × PData)
    (hbody : ∀ q : PData, ((body q).2).mutex = q.mutex) :
    ((with_unique pd body).2.mutex.excl = pd.mutex.excl ∧
     (with_unique pd body).2.mutex.shd = pd.mutex.shd ∧
     (with_unique pd body).1
        = (body { pd with mutex := lockExclusive pd.mutex }).1) ∧
    ((with_shared pd body).2.mutex.shd = pd.mutex.shd ∧
     (with_shared pd body).2.mutex.excl = pd.mutex.excl ∧
     (with_shared pd body).1
        = (body { pd with mutex := lockShared pd.mutex }).1) := by
  have h1 := hbody { pd with mutex := lockExclusive pd.mutex }
  have h2 := hbody { pd with mutex := lockShared pd.mutex }
  simp only [lockExclusive, lockShared] at h1 h2
  refine ⟨⟨?_, ?_, rfl⟩, ⟨?_, ?_, rfl⟩⟩ <;>
    simp [with_unique, with_shared, uguardDrop, sguardDrop, h1, h2,
      lockExclusive, unlockExclusive, lockShared, unlockShared]

/-- Concrete fixture: a scope body that mutates the object through the
guard and then exits by raising. -/
def bodyErr : PData → Except Nat Nat × PData :=
  fun q => (Except.error 3, uguardWrite fEdge q)

/-- Witness for C3: on the concrete container, a body that raises still
leaves the lock counts as they were before the scope. -/
theorem C3_witness :
    ((with_unique pdSq bodyErr).2.mutex.excl = pdSq.mutex.excl ∧
     (with_unique pdSq bodyErr).2.mutex.shd = pdSq.mutex.shd ∧
     (with_unique pdSq bodyErr).1
        = (bodyErr { pdSq with mutex := lockExclusive pdSq.mutex }).1) ∧
    ((with_shared pdSq bodyErr).2.mutex.shd = pdSq.mutex.shd ∧
     (with_shared pdSq bodyErr).2.mutex.excl = pdSq.mutex.excl ∧
     (with_shared pdSq bodyErr).1
        = (bodyErr { pdSq with mutex := lockShared pdSq.mutex }).1) :=
  C3_release_on_all_paths pdSq bodyErr fun _ => rfl

/-- C2: under the RAII protocol, a reachable mutex state never has more
than one exclusive holder and never an exclusive holder alongside a
shared holder (so at most one `ExclusiveGuard` is alive per container
and no `SharedGuard` is alive while it is); and in the lost-update
experiment — N threads that each repeatedly construct an exclusive
guard, perform a non-atomic read-increment-write of the counter stored
in the contained object, and release — at most one thread holds the
guard in any reachable state, and when all threads have finished the
counter equals the total number of increments performed. -/
theorem C2_mutual_exclusion :
    (∀ m : LockState, Relation.ReflTransGen LockStep freeLock m →
      m.excl ≤ 1 ∧ (0 < m.excl → m.shd = 0)) ∧
    (∀ s0 s : Sys, InitSys s0 → Relation.ReflTransGen Step s0 s →
      (∀ i j : Nat, ∀ ti tj : TState, s.threads[i]? = some ti →
          s.threads[j]? = some tj → ti.pc ≠ PC.idle → tj.pc ≠ PC.idle →
          i = j) ∧
      ((∀ t ∈ s.threads, t.pc = PC.idle ∧ t.remaining = 0) →
        s.counter = (s.threads.map fun t => t.total).sum)) := by
  constructor
  · intro m hm
    exact lockInv_reach hm
  · intro s0 s h0 hr
    have hinv := inv_reach h0 hr
    exact ⟨fun i j ti tj hi hj hti htj => mutex_unique hinv hi hj hti htj,
      fun hdone => counter_final hinv hdone⟩

/-- Concrete fixture: a single idle thread with one increment ahead. -/
def tA : TState :=
  { pc := PC.idle, remaining := 1, total := 1 }

/-- Concrete fixture: initial system of the one-thread experiment. -/
def sysA : Sys :=
  { mutex := freeLock, counter := 0, threads := [tA] }

/-- Concrete fixture: the thread has acquired the guard. -/
def sysB : Sys :=
  { mutex := { excl := 1, shd := 0, acqE := 1, acqS := 0 }, counter := 0,
    threads := [{ pc := PC.locked, remaining := 1, total := 1 }] }

/-- Concrete fixture: the thread has read the counter. -/
def sysC : Sys :=
  { mutex := { excl := 1, shd := 0, acqE := 1, acqS := 0 }, counter := 0,
    threads := [{ pc := PC.haveVal 0, remaining := 1, total := 1 }] }

/-- Concrete fixture: the thread has written back and released. -/
def sysD : Sys :=
  { mutex := { excl := 0, shd := 0, acqE := 1, acqS := 0 }, counter := 1,
    threads := [{ pc := PC.idle, remaining := 0, total := 1 }] }

/-- Witness for C2: a one-step lock trace satisfies the mutex
invariant, and a complete concrete execution of the one-thread
experiment ends with the counter equal to the number of increments. -/
theorem C2_witness :
    ((lockExclusive freeLock).excl ≤ 1 ∧
      (0 < (lockExclusive freeLock).excl →
        (lockExclusive freeLock).shd = 0)) ∧
    sysD.counter = (sysD.threads.map fun t => t.total).sum := by
  constructor
  · exact C2_mutual_exclusion.1 (lockExclusive freeLock)
      (Relation.ReflTransGen.single (LockStep.acqE freeLock (by decide)))
  · have st1 : Step sysA sysB :=
      Step.acquire sysA 0 tA rfl rfl (by decide) ⟨rfl, rfl⟩
    have st2 : Step sysB sysC :=
      Step.readC sysB 0 { pc := PC.locked, remaining := 1, total := 1 }
        rfl rfl
    have st3 : Step sysC sysD :=
      Step.writeC sysC 0 { pc := PC.haveVal 0, remaining := 1, total := 1 }
        0 rfl rfl
    exact (C2_mutual_exclusion.2 sysA sysD ⟨rfl, rfl, by decide⟩
      (Relation.ReflTransGen.head st1 (Relation.ReflTransGen.head st2
        (Relation.ReflTransGen.single st3)))).2 (by decide)

end CPD
